import Mathlib

/-!
# Verification of the romantics file utility core

Shallow embedding of the core operations of `src/romantics.py`:

* `clean_filename` — the filename-cleaning pipeline (lines 870–885),
* `os.path.splitext` — Python's base/extension split, used both by the
  cleaner and by the copy engine's collision resolution,
* `find_duplicates` / `get_file_hash` — the duplicate scan (lines 319–370,
  585–592),
* `load_source_files` — the filtered directory listing (lines 245–274),
* `CopyWorker` (`get_unique_dest_path`, `copy_file_with_progress`, `run`)
  and `copy_selected_files` — the bulk copy engine (lines 641–798).

Strings are modelled as lists of Unicode code points (`List Nat`), exactly
the view Python's `str` operations take; `str.lower` is modelled by its
ASCII action (the only case-folding relevant to the character classes the
code manipulates).  Filesystem state is passed explicitly: a directory is
an association list from file names to contents, file contents are lists
of chunks (each chunk a list of bytes), and fallible reads return
`Option`.
-/

/-- Strings as lists of Unicode code points, the way Python's `str`
operations see them. -/
abbrev Str : Type := List Nat

/-- Decode a Lean string literal into the code-point model. -/
def strL (s : String) : Str := s.data.map Char.toNat

/-- `str.lower` restricted to its ASCII action: code points 65–90
(`A`–`Z`) are shifted to 97–122 (`a`–`z`), everything else is fixed. -/
def lowerCP (n : Nat) : Nat := if 65 ≤ n ∧ n ≤ 90 then n + 32 else n

/-- `str.lower` on a whole string. -/
def lowerStr (s : Str) : Str := s.map lowerCP

/-- Boolean test for the dot character (code point 46). -/
def isDotB (n : Nat) : Bool := n == 46

/-- Split a string at its last `.` (code point 46): returns
`some (before, from-the-dot)` when a dot occurs, `none` otherwise.
Helper for `splitext`. -/
def splitLast : Str → Option (Str × Str)
  | [] => none
  | c :: cs =>
    match splitLast cs with
    | some (b, e) => some (c :: b, e)
    | none => if c = 46 then some ([], c :: cs) else none

/-- Python os.path.splitext on a bare file name (no path separators):
split at the last dot, except that a leading run of dots counts as part
of the base (`.bashrc` has empty extension). -/
def splitext (p : Str) : Str × Str :=
  let lead := p.takeWhile isDotB
  let rest := p.dropWhile isDotB
  match splitLast rest with
  | some (b, e) => (lead ++ b, e)
  | none => (p, [])

/-- The character whitelist of `clean_filename`'s `re.sub(r'[^a-z0-9.-]', '', base)`:
lowercase ASCII letters, digits, `.` and `-`. -/
def wlChar (n : Nat) : Bool :=
  (97 ≤ n && n ≤ 122) || (48 ≤ n && n ≤ 57) || n == 46 || n == 45

/-- `base.replace(' ', '.')`: each space (32) becomes a dot (46). -/
def spaceToDot (s : Str) : Str := s.map (fun n => if n = 32 then 46 else n)

/-- `re.sub(r'[^a-z0-9.-]', '', base)`: delete every non-whitelisted
character. -/
def filterWL (s : Str) : Str := s.filter wlChar

/-- `re.sub(r'\.+', '.', base)`: collapse each run of consecutive dots to
a single dot. -/
def collapseDots : Str → Str
  | [] => []
  | [a] => [a]
  | a :: b :: t =>
    if a = 46 ∧ b = 46 then collapseDots (b :: t) else a :: collapseDots (b :: t)

/-- Python base.strip with the single argument dot: remove leading and
trailing dots. -/
def stripDots (s : Str) : Str :=
  ((s.dropWhile isDotB).reverse.dropWhile isDotB).reverse

/-- The base half of `clean_filename`: lower-case, spaces to dots, filter
to the whitelist, collapse dot runs, strip boundary dots (source lines
874–883, in source order). -/
def cleanBase (b : Str) : Str :=
  stripDots (collapseDots (filterWL (spaceToDot (lowerStr b))))

/-- `clean_filename` (source lines 870–885): split into base and
extension with `os.path.splitext`, clean the base, lower-case the
extension, and recombine. -/
def clean_filename (p : Str) : Str :=
  let be := splitext p
  cleanBase be.1 ++ lowerStr be.2

/-! ## Lemmas about the cleaning pipeline -/

/-- No two adjacent characters are both dots. -/
def NoDD (l : Str) : Prop := l.Chain' (fun a b => ¬(a = 46 ∧ b = 46))

theorem splitLast_eq_none_iff {l : Str} : splitLast l = none ↔ 46 ∉ l := by
  induction l with
  | nil => simp [splitLast]
  | cons c cs ih =>
    rw [splitLast]
    cases h : splitLast cs with
    | some be =>
      have hm : (46 : Nat) ∈ cs := by
        by_contra hc
        rw [ih.mpr hc] at h
        cases h
      simp [hm]
    | none =>
      have h46 : (46 : Nat) ∉ cs := ih.mp h
      by_cases hc : c = 46
      · simp [hc]
      · simp [hc, h46, Ne.symm hc]

theorem splitLast_eq_some {l b e : Str} (h : splitLast l = some (b, e)) :
    l = b ++ e ∧ ∃ r, e = 46 :: r ∧ 46 ∉ r := by
  induction l generalizing b e with
  | nil => simp [splitLast] at h
  | cons c cs ih =>
    rw [splitLast] at h
    cases hcs : splitLast cs with
    | some be =>
      rw [hcs] at h
      obtain ⟨b0, e0⟩ := be
      obtain ⟨rfl, rfl⟩ : c :: b0 = b ∧ e0 = e := by
        constructor <;> { injection h with h1; injection h1 }
      obtain ⟨h1, r, h2, h3⟩ := ih hcs
      exact ⟨by rw [List.cons_append, ← h1], r, h2, h3⟩
    | none =>
      rw [hcs] at h
      by_cases hc : c = 46
      · rw [if_pos hc] at h
        obtain ⟨rfl, rfl⟩ : ([] : Str) = b ∧ c :: cs = e := by
          constructor <;> { injection h with h1; injection h1 }
        exact ⟨rfl, cs, by rw [hc], splitLast_eq_none_iff.mp hcs⟩
      · rw [if_neg hc] at h
        cases h

theorem splitLast_append_dot {t : Str} (ht : 46 ∉ t) (s : Str) :
    splitLast (s ++ 46 :: t) = some (s, 46 :: t) := by
  induction s with
  | nil =>
    rw [List.nil_append, splitLast, splitLast_eq_none_iff.mpr ht]
    simp
  | cons c cs ih => rw [List.cons_append, splitLast, ih]

theorem mem_collapseDots {a : Nat} : ∀ {l : Str}, a ∈ collapseDots l → a ∈ l := by
  intro l
  induction l using collapseDots.induct with
  | case1 => intro h; exact absurd h (by simp [collapseDots])
  | case2 x => simp [collapseDots]
  | case3 x y t hxy ih =>
    intro h
    rw [collapseDots, if_pos hxy] at h
    exact List.mem_cons_of_mem _ (ih h)
  | case4 x y t hxy ih =>
    intro h
    rw [collapseDots, if_neg hxy] at h
    rcases List.mem_cons.mp h with h1 | h1
    · simp [h1]
    · exact List.mem_cons_of_mem _ (ih h1)

theorem collapseDots_head? : ∀ (l : Str), (collapseDots l).head? = l.head? := by
  intro l
  induction l using collapseDots.induct with
  | case1 => rfl
  | case2 x => rfl
  | case3 x y t hxy ih =>
    rw [collapseDots, if_pos hxy, ih]
    simp [hxy.1, hxy.2]
  | case4 x y t hxy ih => rw [collapseDots, if_neg hxy]; rfl

theorem noDD_collapseDots : ∀ (l : Str), NoDD (collapseDots l) := by
  intro l
  induction l using collapseDots.induct with
  | case1 => exact List.chain'_nil
  | case2 x => exact List.chain'_singleton x
  | case3 x y t hxy ih => rw [collapseDots, if_pos hxy]; exact ih
  | case4 x y t hxy ih =>
    rw [collapseDots, if_neg hxy]
    rcases hc : collapseDots (y :: t) with _ | ⟨z, zs⟩
    · exact List.chain'_singleton x
    · refine List.Chain'.cons ?_ (hc ▸ ih)
      have : z = y := by
        have := collapseDots_head? (y :: t)
        rw [hc] at this
        simpa using this
      rw [this]
      exact hxy

theorem collapseDots_eq_self : ∀ {l : Str}, NoDD l → collapseDots l = l := by
  intro l
  induction l using collapseDots.induct with
  | case1 => intro _; rfl
  | case2 x => intro _; rfl
  | case3 x y t hxy ih =>
    intro h
    exact absurd hxy (List.chain'_cons.mp h).1
  | case4 x y t hxy ih =>
    intro h
    rw [collapseDots, if_neg hxy, ih (List.chain'_cons.mp h).2]

theorem stripDots_eq (l : Str) :
    stripDots l = List.rdropWhile isDotB (List.dropWhile isDotB l) := rfl

theorem mem_stripDots {a : Nat} {l : Str} (h : a ∈ stripDots l) : a ∈ l := by
  rw [stripDots_eq] at h
  have h1 := List.rdropWhile_prefix isDotB (List.dropWhile isDotB l)
  exact (List.dropWhile_suffix isDotB).subset (h1.subset h)

theorem head?_of_isPre {l₁ l₂ : List Nat} (h : l₁ <+: l₂) (hne : l₁ ≠ []) :
    l₂.head? = l₁.head? := by
  obtain ⟨t, rfl⟩ := h
  exact List.head?_append_of_ne_nil _ hne

theorem stripDots_head? (l : Str) : (stripDots l).head? ≠ some 46 := by
  intro hc
  have hne : stripDots l ≠ [] := by
    intro hnil; rw [hnil] at hc; cases hc
  have hpre : stripDots l <+: List.dropWhile isDotB l := by
    rw [stripDots_eq]
    exact List.rdropWhile_prefix isDotB _
  have h1 : (List.dropWhile isDotB l).head? = some 46 := by
    rw [head?_of_isPre hpre hne]
    exact hc
  have hne2 : List.dropWhile isDotB l ≠ [] := by
    intro hnil; rw [hnil] at h1; cases h1
  have h2 := List.head_dropWhile_not isDotB l hne2
  rw [List.head?_eq_head hne2] at h1
  rw [Option.some_inj.mp h1] at h2
  simp [isDotB] at h2

theorem stripDots_getLast? (l : Str) : (stripDots l).getLast? ≠ some 46 := by
  rw [stripDots_eq]
  intro hc
  have hne : List.rdropWhile isDotB (List.dropWhile isDotB l) ≠ [] := by
    intro hnil; rw [hnil] at hc; cases hc
  have hlast := List.rdropWhile_last_not isDotB (List.dropWhile isDotB l) hne
  rw [List.getLast?_eq_getLast _ hne] at hc
  have : List.getLast _ hne = 46 := Option.some_injective _ hc
  rw [this] at hlast
  simp [isDotB] at hlast

theorem noDD_stripDots {l : Str} (h : NoDD l) : NoDD (stripDots l) := by
  rw [stripDots_eq]
  have h1 := h.suffix (List.dropWhile_suffix isDotB)
  have h2 := List.rdropWhile_prefix isDotB (List.dropWhile isDotB l)
  exact List.Chain'.prefix h1 h2

theorem dropWhile_dot_eq_self {l : Str} (h : l.head? ≠ some 46) :
    l.dropWhile isDotB = l := by
  cases l with
  | nil => rfl
  | cons c cs =>
    have hc : c ≠ 46 := fun hc => h (by rw [hc]; rfl)
    rw [List.dropWhile_cons]
    simp [isDotB, hc]

theorem takeWhile_dot_eq_nil {l : Str} (h : l.head? ≠ some 46) :
    l.takeWhile isDotB = [] := by
  cases l with
  | nil => rfl
  | cons c cs =>
    have hc : c ≠ 46 := fun hc => h (by rw [hc]; rfl)
    rw [List.takeWhile_cons]
    simp [isDotB, hc]

theorem stripDots_eq_self {l : Str} (h1 : l.head? ≠ some 46)
    (h2 : l.getLast? ≠ some 46) : stripDots l = l := by
  rw [stripDots_eq, dropWhile_dot_eq_self h1, List.rdropWhile]
  rw [dropWhile_dot_eq_self (by rw [List.head?_reverse]; exact h2)]
  exact List.reverse_reverse l

theorem wl_of_mem_cleanBase {a : Nat} {b : Str} (h : a ∈ cleanBase b) :
    wlChar a = true := by
  have h1 := mem_collapseDots (mem_stripDots h)
  exact (List.mem_filter.mp h1).2

theorem lowerCP_of_wl {a : Nat} (h : wlChar a = true) : lowerCP a = a := by
  rw [wlChar] at h
  rw [lowerCP]
  split
  · simp only [Bool.or_eq_true, Bool.and_eq_true, decide_eq_true_eq, beq_iff_eq] at h
    omega
  · rfl

theorem lowerCP_idem (a : Nat) : lowerCP (lowerCP a) = lowerCP a := by
  by_cases h : 65 ≤ a ∧ a ≤ 90
  · have h1 : lowerCP a = a + 32 := by rw [lowerCP, if_pos h]
    rw [h1, lowerCP, if_neg (by omega)]
  · have h1 : lowerCP a = a := by rw [lowerCP, if_neg h]
    rw [h1]
    exact h1

theorem lowerCP_eq_46_iff {a : Nat} : lowerCP a = 46 ↔ a = 46 := by
  rw [lowerCP]
  split <;> omega

theorem wl_ne_32 {a : Nat} (h : wlChar a = true) : a ≠ 32 := by
  rw [wlChar] at h
  simp only [Bool.or_eq_true, Bool.and_eq_true, decide_eq_true_eq, beq_iff_eq] at h
  omega

theorem lowerStr_eq_self {l : Str} (h : ∀ a ∈ l, wlChar a = true) :
    lowerStr l = l := by
  rw [lowerStr]
  rw [List.map_congr_left (fun a ha => lowerCP_of_wl (h a ha))]
  exact List.map_id l

theorem spaceToDot_eq_self {l : Str} (h : ∀ a ∈ l, wlChar a = true) :
    spaceToDot l = l := by
  rw [spaceToDot]
  rw [List.map_congr_left (fun a ha => if_neg (wl_ne_32 (h a ha)))]
  exact List.map_id l

theorem filterWL_eq_self {l : Str} (h : ∀ a ∈ l, wlChar a = true) :
    filterWL l = l :=
  List.filter_eq_self.mpr h

theorem cleanBase_fix {l : Str} (hwl : ∀ a ∈ l, wlChar a = true) (hdd : NoDD l)
    (hh : l.head? ≠ some 46) (hl : l.getLast? ≠ some 46) : cleanBase l = l := by
  rw [cleanBase, lowerStr_eq_self hwl, spaceToDot_eq_self hwl,
    filterWL_eq_self hwl, collapseDots_eq_self hdd, stripDots_eq_self hh hl]

theorem noDD_cleanBase (b : Str) : NoDD (cleanBase b) :=
  noDD_stripDots (noDD_collapseDots _)

theorem cleanBase_head? (b : Str) : (cleanBase b).head? ≠ some 46 :=
  stripDots_head? _

theorem cleanBase_getLast? (b : Str) : (cleanBase b).getLast? ≠ some 46 :=
  stripDots_getLast? _

theorem cleanBase_idem (b : Str) : cleanBase (cleanBase b) = cleanBase b :=
  cleanBase_fix (fun _ h => wl_of_mem_cleanBase h) (noDD_cleanBase b)
    (cleanBase_head? b) (cleanBase_getLast? b)

theorem clean_filename_eq (p : Str) :
    clean_filename p = cleanBase (splitext p).1 ++ lowerStr (splitext p).2 := rfl

theorem splitext_of_head_not_dot {l : Str} (h : l.head? ≠ some 46) :
    splitext l =
      match splitLast l with
      | some be => be
      | none => (l, []) := by
  rw [splitext]
  simp only [takeWhile_dot_eq_nil h, dropWhile_dot_eq_self h]
  cases hsl : splitLast l with
  | none => rfl
  | some be => simp

/-- Applied to a string that cleanBase has produced, the whole cleaner is
the identity: this is the heart of the idempotence argument. -/
theorem clean_of_cleanBase (b : Str) :
    clean_filename (cleanBase b) = cleanBase b := by
  have hwl : ∀ a ∈ cleanBase b, wlChar a = true := fun _ h => wl_of_mem_cleanBase h
  have hdd : NoDD (cleanBase b) := noDD_cleanBase b
  have hh : (cleanBase b).head? ≠ some 46 := cleanBase_head? b
  have hl : (cleanBase b).getLast? ≠ some 46 := cleanBase_getLast? b
  rw [clean_filename_eq, splitext_of_head_not_dot hh]
  cases hsl : splitLast (cleanBase b) with
  | none =>
    simp only []
    rw [show lowerStr ([] : Str) = [] from rfl, List.append_nil]
    exact cleanBase_idem b
  | some be =>
    obtain ⟨b2, e2⟩ := be
    obtain ⟨hcb, r2, he2, hr2⟩ := splitLast_eq_some hsl
    subst he2
    simp only []
    have hwl2 : ∀ a ∈ b2, wlChar a = true := fun a ha =>
      hwl a (hcb ▸ List.mem_append_left _ ha)
    have hdd2 : NoDD b2 := (List.chain'_append.mp (hcb ▸ hdd)).1
    have hh2 : b2.head? ≠ some 46 := by
      cases hb2 : b2 with
      | nil => simp
      | cons c cs =>
        rw [← hb2]
        rw [← @List.head?_append_of_ne_nil Nat b2 (46 :: r2) (by rw [hb2]; simp)]
        rw [← hcb]
        exact hh
    have hl2 : b2.getLast? ≠ some 46 := by
      intro hc
      have := (List.chain'_append.mp (hcb ▸ hdd)).2.2 46 hc 46 rfl
      exact this ⟨rfl, rfl⟩
    have hext : ∀ a ∈ (46 :: r2 : Str), wlChar a = true := fun a ha =>
      hwl a (hcb ▸ List.mem_append_right _ ha)
    rw [cleanBase_fix hwl2 hdd2 hh2 hl2, lowerStr_eq_self hext]
    exact hcb.symm

/-- The extension half produced by splitext is empty or starts with the
last dot and contains no further dot. -/
theorem splitext_snd (p : Str) :
    (splitext p).2 = [] ∨ ∃ r, (splitext p).2 = 46 :: r ∧ 46 ∉ r := by
  rw [splitext]
  cases hsl : splitLast (p.dropWhile isDotB) with
  | none => simp
  | some be =>
    obtain ⟨b0, e0⟩ := be
    obtain ⟨_, r, her, hr⟩ := splitLast_eq_some hsl
    right
    exact ⟨r, by simpa using her, hr⟩

theorem mem_lowerStr_46 {l : Str} (h : 46 ∉ l) : 46 ∉ lowerStr l := by
  intro hc
  obtain ⟨a, ha, hla⟩ := List.mem_map.mp hc
  exact h (lowerCP_eq_46_iff.mp hla ▸ ha)

theorem lowerStr_idem (l : Str) : lowerStr (lowerStr l) = lowerStr l := by
  rw [lowerStr, lowerStr, List.map_map]
  exact List.map_congr_left (fun a _ => lowerCP_idem a)

/-- Idempotence of the cleaner on every input whose cleaned form does not
begin with a dot. -/
theorem clean_filename_idem_aux {p : Str}
    (h : (clean_filename p).head? ≠ some 46) :
    clean_filename (clean_filename p) = clean_filename p := by
  rcases splitext_snd p with he | ⟨r, he, hr⟩
  · rw [clean_filename_eq p, he, show lowerStr ([] : Str) = [] from rfl,
      List.append_nil]
    exact clean_of_cleanBase _
  · have hclean : clean_filename p = cleanBase (splitext p).1 ++ 46 :: lowerStr r := by
      rw [clean_filename_eq p, he]
      rfl
    have hcb : cleanBase (splitext p).1 ≠ [] := by
      intro hnil
      rw [hclean, hnil, List.nil_append] at h
      exact h rfl
    have hh : (cleanBase (splitext p).1).head? ≠ some 46 := cleanBase_head? _
    have h46 : 46 ∉ lowerStr r := mem_lowerStr_46 hr
    rw [hclean, clean_filename_eq, splitext_of_head_not_dot
      (by rw [List.head?_append_of_ne_nil _ hcb]; exact hh)]
    rw [splitLast_append_dot h46]
    simp only []
    rw [cleanBase_idem]
    have : lowerStr (46 :: lowerStr r) = 46 :: lowerStr r := by
      have : lowerStr (46 :: r) = 46 :: lowerStr r := rfl
      rw [← this, lowerStr_idem, this]
    rw [this]

/-! ## An independent formulation of the base/extension split

The amended claim C7 describes the split in terms of the position of the
last dot; `splitextSpec` renders that description directly (scanning from
the right), and is proved to agree with the translated `splitext`. -/

/-- Base/extension split as described: locate the last dot; if some
non-dot character precedes it, split there; otherwise (no dot at all, or
nothing but dots before it) the whole name is the base. -/
def splitextSpec (p : Str) : Str × Str :=
  let r := p.reverse
  let after := r.takeWhile (fun n => !(n == 46))
  let rest := r.drop after.length
  if rest = [] then (p, [])
  else if rest.tail.all isDotB then (p, [])
  else (rest.tail.reverse, 46 :: after.reverse)

theorem exists_last_dot {p : Str} (h : 46 ∈ p) :
    ∃ b t, p = b ++ 46 :: t ∧ 46 ∉ t := by
  cases hsl : splitLast p with
  | none => exact absurd (splitLast_eq_none_iff.mp hsl) (by simpa using h)
  | some be =>
    obtain ⟨b0, e0⟩ := be
    obtain ⟨hp, r, he, hr⟩ := splitLast_eq_some hsl
    exact ⟨b0, r, by rw [hp, he], hr⟩

theorem takeWhile_all_eq_self {q : Nat → Bool} : ∀ {l : Str},
    (∀ a ∈ l, q a = true) → l.takeWhile q = l := by
  intro l
  induction l with
  | nil => intro _; rfl
  | cons c cs ih =>
    intro h
    rw [List.takeWhile_cons, if_pos (h c (List.mem_cons_self c cs)),
      ih (fun a ha => h a (List.mem_cons_of_mem _ ha))]

theorem takeWhile_nondot {x : Str} (hx : 46 ∉ x) (y : Str) :
    (x ++ 46 :: y).takeWhile (fun n => !(n == 46)) = x := by
  induction x with
  | nil => simp [List.takeWhile_cons]
  | cons c cs ih =>
    have hc : c ≠ 46 := fun h => hx (h ▸ List.mem_cons_self c cs)
    rw [List.cons_append, List.takeWhile_cons, if_pos (by simpa using hc),
      ih (fun h => hx (List.mem_cons_of_mem _ h))]

theorem takeWhile_dot_append {x : Str} (hx : ¬x.all isDotB = true) (y : Str) :
    (x ++ y).takeWhile isDotB = x.takeWhile isDotB := by
  induction x with
  | nil => simp at hx
  | cons c cs ih =>
    rw [List.cons_append, List.takeWhile_cons, List.takeWhile_cons]
    by_cases hc : isDotB c = true
    · have hcs : ¬cs.all isDotB = true := by
        rw [List.all_cons, hc] at hx
        simpa using hx
      rw [if_pos hc, if_pos hc, ih hcs]
    · rw [if_neg hc, if_neg hc]

theorem head?_ne_dot_of_not_mem {t : Str} (ht : 46 ∉ t) : t.head? ≠ some 46 :=
  fun hc => ht (List.mem_of_mem_head? (Option.mem_def.mpr hc))

theorem splitextSpec_eq (p : Str) : splitextSpec p = splitext p := by
  by_cases h46 : (46 : Nat) ∈ p
  · obtain ⟨b, t, rfl, ht⟩ := exists_last_dot h46
    have hrev : (b ++ 46 :: t).reverse = t.reverse ++ 46 :: b.reverse := by
      simp
    have hrt : (46 : Nat) ∉ t.reverse := by simpa using ht
    have htake : ((b ++ 46 :: t).reverse).takeWhile (fun n => !(n == 46)) =
        t.reverse := by
      rw [hrev]
      exact takeWhile_nondot hrt _
    have hdrop : ((b ++ 46 :: t).reverse).drop t.reverse.length =
        46 :: b.reverse := by
      rw [hrev]
      exact List.drop_left _ _
    rw [splitextSpec]
    simp only [htake, hdrop]
    by_cases hb : b.all isDotB = true
    · rw [if_neg (by simp), List.tail_cons, if_pos (by rw [List.all_reverse]; exact hb)]
      rw [splitext]
      have hdw : (b ++ 46 :: t).dropWhile isDotB = t := by
        rw [List.dropWhile_append, if_pos (by
          rw [List.isEmpty_iff, List.dropWhile_eq_nil_iff]
          exact fun x hx => List.all_eq_true.mp hb x hx)]
        rw [List.dropWhile_cons, if_pos (by rw [isDotB]; rfl),
          dropWhile_dot_eq_self (head?_ne_dot_of_not_mem ht)]
      rw [hdw, splitLast_eq_none_iff.mpr ht]
    · rw [if_neg (by simp), List.tail_cons,
        if_neg (by rw [List.all_reverse]; exact hb), List.reverse_reverse,
        List.reverse_reverse]
      rw [splitext]
      have hb2 : b.dropWhile isDotB ≠ [] := by
        rw [Ne, List.dropWhile_eq_nil_iff]
        intro hall
        exact hb (List.all_eq_true.mpr hall)
      have hdw : (b ++ 46 :: t).dropWhile isDotB = b.dropWhile isDotB ++ 46 :: t := by
        rw [List.dropWhile_append, if_neg (by simpa [List.isEmpty_iff] using hb2)]
      have htk : (b ++ 46 :: t).takeWhile isDotB = b.takeWhile isDotB :=
        takeWhile_dot_append hb _
      rw [hdw, splitLast_append_dot ht, htk]
      simp only []
      rw [List.takeWhile_append_dropWhile]
  · have hafter : (p.reverse).takeWhile (fun n => !(n == 46)) = p.reverse :=
      takeWhile_all_eq_self (fun a ha => by
        simp only [Bool.not_eq_eq_eq_not, Bool.not_true, beq_eq_false_iff_ne, ne_eq]
        exact fun hc => h46 (hc ▸ List.mem_reverse.mp ha))
    rw [splitextSpec]
    simp only [hafter, List.drop_length, if_pos rfl]
    rw [splitext]
    have hd : (46 : Nat) ∉ p.dropWhile isDotB := fun hc =>
      h46 ((List.dropWhile_suffix isDotB).subset hc)
    rw [splitLast_eq_none_iff.mpr hd]
    simp

/-- The cleaner exactly as the amended claim C7 describes it, over the
independent `splitextSpec` split. -/
def cleanSpecAmended (p : Str) : Str :=
  cleanBase (splitextSpec p).1 ++ lowerStr (splitextSpec p).2

/-- The cleaner as the original claim C7 describes it, with the split
taken literally at the last dot whenever the name contains one. -/
def cleanLastDot (p : Str) : Str :=
  match splitLast p with
  | some (b, e) => cleanBase b ++ lowerStr e
  | none => cleanBase p

/-! ## Claim C6 (filename cleaner idempotence) -/

/-- C6 counterexample: the cleaner is not idempotent.  For the filename
`?.TXT` the base cleans to the empty string, so one application yields
`.txt`; a second application treats `.txt` as a dot-initial base with no
extension and strips the leading dot, yielding `txt`. -/
theorem clean_filename_not_idempotent :
    clean_filename (clean_filename (strL "?.TXT")) ≠ clean_filename (strL "?.TXT") := by
  decide

/-- C6 (amended): the filename cleaner is idempotent on every filename
whose cleaned form does not begin with a dot, i.e. whenever the cleaned
base is nonempty or the extension is empty; only cleaned names that start
with their extension's dot are changed by a second application. -/
theorem clean_filename_idem (p : Str)
    (h : (clean_filename p).head? ≠ some 46) :
    clean_filename (clean_filename p) = clean_filename p :=
  clean_filename_idem_aux h

/-- Witness for `clean_filename_idem` at the concrete filename
`A B.TXT`, whose cleaned form `a.b.txt` does not begin with a dot. -/
theorem clean_filename_idem_witness :
    (clean_filename (strL "A B.TXT")).head? ≠ some 46 ∧
      clean_filename (clean_filename (strL "A B.TXT")) =
        clean_filename (strL "A B.TXT") :=
  ⟨by decide, clean_filename_idem (strL "A B.TXT") (by decide)⟩

/-! ## Claim C7 (filename cleaner pipeline) -/

/-- C7 counterexample: the cleaner does not always split at the last dot.
For the dotfile `.bashrc`, splitting literally at the last dot (as the
claim describes, rendered by `cleanLastDot`) would keep the name
`.bashrc` unchanged, but `os.path.splitext` treats the leading dot as
part of the base, so the code returns `bashrc`. -/
theorem clean_filename_dotfile_diverges :
    cleanLastDot (strL ".bashrc") = strL ".bashrc" ∧
      clean_filename (strL ".bashrc") = strL "bashrc" ∧
      cleanLastDot (strL ".bashrc") ≠ clean_filename (strL ".bashrc") := by
  decide

/-- C7 (amended): the filename cleaner splits at the last dot provided
some non-dot character precedes it (a name whose only dots are leading is
treated as all base with empty extension), lower-cases base and
extension, and in the base replaces spaces with dots, deletes characters
outside the whitelist, collapses runs of dots and strips boundary dots;
in particular `My Game (USA) [v1.0].ROM` cleans to
`my.game.usa.v1.0.rom`. -/
theorem clean_filename_spec :
    (∀ p : Str, clean_filename p = cleanSpecAmended p) ∧
      clean_filename (strL "My Game (USA) [v1.0].ROM") =
        strL "my.game.usa.v1.0.rom" := by
  constructor
  · intro p
    rw [cleanSpecAmended, splitextSpec_eq, clean_filename_eq]
  · decide

/-! ## The duplicate scan

`find_duplicates` (source lines 319–370) iterates over the selected
files; each iteration first consults the progress dialog's cancel flag
(modelled as a predicate of the number of files already attempted), then
hashes the file with `get_file_hash` and appends the path to the dict
entry for the hash — Python dicts preserve insertion order, so the dict
is an association list grown at the tail.  An `OSError` (a file that
cannot be read, modelled as the filesystem returning `none`) is reported
in a message box and the loop continues.  Finally groups with fewer than
two members are dropped. -/

/-- get_file_hash (source lines 585–592): streams the file in 4096-byte
chunks through a SHA-256 digest.  The digest of the full content is
modelled by an abstract function `h` on contents (chunking is internal to
the digest); an unreadable file is `none`. -/
def get_file_hash {H C P : Type} (h : C → H) (fs : P → Option C) (p : P) :
    Option H :=
  (fs p).map h

/-- One step of the dict accumulation: append to the entry for key `k`,
or create the entry `(k, [p])` at the tail. -/
def groupInsert {H P : Type} [DecidableEq H] :
    List (H × List P) → H → P → List (H × List P)
  | [], k, p => [(k, [p])]
  | (k0, ps) :: rest, k, p =>
    if k0 = k then (k0, ps ++ [p]) :: rest
    else (k0, ps) :: groupInsert rest k p

/-- The scanning loop of find_duplicates (source lines 339–357). -/
def dupScanLoop {H C P : Type} [DecidableEq H] (h : C → H) (fs : P → Option C)
    (wasCanceled : Nat → Bool) :
    List P → Nat → List (H × List P) → List P → List (H × List P) × List P
  | [], _, m, errs => (m, errs)
  | p :: ps, i, m, errs =>
    if wasCanceled i then (m, errs)
    else
      match get_file_hash h fs p with
      | some hv => dupScanLoop h fs wasCanceled ps (i + 1) (groupInsert m hv p) errs
      | none => dupScanLoop h fs wasCanceled ps (i + 1) m (errs ++ [p])

/-- find_duplicates (source lines 319–370): run the scan from an empty
dict, then keep only the groups with at least two members
(`len(v) > 1`).  Returns the surviving groups and the reported per-file
errors. -/
def find_duplicates {H C P : Type} [DecidableEq H] (h : C → H)
    (fs : P → Option C) (wasCanceled : Nat → Bool) (paths : List P) :
    List (H × List P) × List P :=
  let me := dupScanLoop h fs wasCanceled paths 0 [] []
  (me.1.filter (fun g => decide (1 < g.2.length)), me.2)

/-! ### Lemmas about the duplicate scan -/

theorem groupInsert_preserves {H P : Type} [DecidableEq H] {g : H × List P} :
    ∀ (m : List (H × List P)) (k : H) (p : P), g ∈ m →
      ∃ g2 ∈ groupInsert m k p, g2.1 = g.1 ∧ ∀ q ∈ g.2, q ∈ g2.2 := by
  intro m
  induction m with
  | nil => intro k p hg; cases hg
  | cons e rest ih =>
    intro k p hg
    obtain ⟨k0, ps⟩ := e
    rw [groupInsert]
    by_cases hk : k0 = k
    · rw [if_pos hk]
      rcases List.mem_cons.mp hg with h1 | h1
      · exact ⟨(k0, ps ++ [p]), List.mem_cons_self _ _, by rw [h1],
          fun q hq => by rw [h1] at hq; exact List.mem_append_left _ hq⟩
      · exact ⟨g, List.mem_cons_of_mem _ h1, rfl, fun q hq => hq⟩
    · rw [if_neg hk]
      rcases List.mem_cons.mp hg with h1 | h1
      · exact ⟨(k0, ps), List.mem_cons_self _ _, by rw [h1], fun q hq => by
          rw [h1] at hq; exact hq⟩
      · obtain ⟨g2, hg2, hk2, hs2⟩ := ih k p h1
        exact ⟨g2, List.mem_cons_of_mem _ hg2, hk2, hs2⟩

theorem groupInsert_self {H P : Type} [DecidableEq H] :
    ∀ (m : List (H × List P)) (k : H) (p : P),
      ∃ g ∈ groupInsert m k p, g.1 = k ∧ p ∈ g.2 := by
  intro m
  induction m with
  | nil =>
    intro k p
    exact ⟨(k, [p]), List.mem_cons_self _ _, rfl, List.mem_cons_self _ _⟩
  | cons e rest ih =>
    intro k p
    obtain ⟨k0, ps⟩ := e
    rw [groupInsert]
    by_cases hk : k0 = k
    · rw [if_pos hk]
      exact ⟨(k0, ps ++ [p]), List.mem_cons_self _ _, hk,
        List.mem_append_right _ (List.mem_cons_self _ _)⟩
    · rw [if_neg hk]
      obtain ⟨g, hg, hk2, hp2⟩ := ih k p
      exact ⟨g, List.mem_cons_of_mem _ hg, hk2, hp2⟩

/-- The members of every group hash to the group's key. -/
def ScanInv {H C P : Type} (h : C → H) (fs : P → Option C)
    (m : List (H × List P)) : Prop :=
  ∀ g ∈ m, ∀ q ∈ g.2, ∃ c, fs q = some c ∧ h c = g.1

theorem groupInsert_inv {H C P : Type} [DecidableEq H] {h : C → H}
    {fs : P → Option C} {p : P} {c : C} (hc : fs p = some c) :
    ∀ {m : List (H × List P)}, ScanInv h fs m →
      ScanInv h fs (groupInsert m (h c) p) := by
  intro m
  induction m with
  | nil =>
    intro _ g hg q hq
    rw [groupInsert] at hg
    rcases List.mem_cons.mp hg with h1 | h1
    · rw [h1] at hq ⊢
      rcases List.mem_cons.mp hq with h2 | h2
      · exact ⟨c, h2 ▸ hc, rfl⟩
      · cases h2
    · cases h1
  | cons e rest ih =>
    intro hinv g hg q hq
    obtain ⟨k0, ps⟩ := e
    rw [groupInsert] at hg
    by_cases hk : k0 = h c
    · rw [if_pos hk] at hg
      rcases List.mem_cons.mp hg with h1 | h1
      · rw [h1] at hq ⊢
        rcases List.mem_append.mp hq with h2 | h2
        · obtain ⟨c2, hc2, hh2⟩ := hinv (k0, ps) (List.mem_cons_self _ _) q h2
          exact ⟨c2, hc2, hh2⟩
        · rcases List.mem_cons.mp h2 with h3 | h3
          · exact ⟨c, h3 ▸ hc, hk.symm⟩
          · cases h3
      · exact hinv g (List.mem_cons_of_mem _ h1) q hq
    · rw [if_neg hk] at hg
      rcases List.mem_cons.mp hg with h1 | h1
      · exact hinv g (h1 ▸ List.mem_cons_self _ _) q (h1 ▸ hq)
      · exact ih (fun g2 hg2 => hinv g2 (List.mem_cons_of_mem _ hg2)) g h1 q hq

theorem dupScanLoop_inv {H C P : Type} [DecidableEq H] {h : C → H}
    {fs : P → Option C} {w : Nat → Bool} :
    ∀ (ps : List P) (i : Nat) (m : List (H × List P)) (errs : List P),
      ScanInv h fs m → ScanInv h fs (dupScanLoop h fs w ps i m errs).1 := by
  intro ps
  induction ps with
  | nil => intro i m errs hinv; exact hinv
  | cons p ps ih =>
    intro i m errs hinv
    rw [dupScanLoop]
    by_cases hw : w i = true
    · rw [if_pos hw]; exact hinv
    · rw [if_neg hw]
      cases hfp : get_file_hash h fs p with
      | some hv =>
        simp only []
        obtain ⟨c, hc, hhc⟩ : ∃ c, fs p = some c ∧ h c = hv := by
          rw [get_file_hash] at hfp
          cases hfs : fs p with
          | none => rw [hfs] at hfp; cases hfp
          | some c =>
            rw [hfs] at hfp
            exact ⟨c, rfl, by injection hfp⟩
        exact ih (i + 1) _ errs (hhc ▸ groupInsert_inv hc hinv)
      | none => exact ih (i + 1) m _ hinv

theorem dupScanLoop_mono {H C P : Type} [DecidableEq H] {h : C → H}
    {fs : P → Option C} {w : Nat → Bool} :
    ∀ (ps : List P) (i : Nat) (m : List (H × List P)) (errs : List P)
      (g : H × List P), g ∈ m → ∃ g2 ∈ (dupScanLoop h fs w ps i m errs).1,
        g2.1 = g.1 ∧ ∀ q ∈ g.2, q ∈ g2.2 := by
  intro ps
  induction ps with
  | nil => intro i m errs g hg; exact ⟨g, hg, rfl, fun q hq => hq⟩
  | cons p ps ih =>
    intro i m errs g hg
    rw [dupScanLoop]
    by_cases hw : w i = true
    · rw [if_pos hw]; exact ⟨g, hg, rfl, fun q hq => hq⟩
    · rw [if_neg hw]
      cases hfp : get_file_hash h fs p with
      | some hv =>
        simp only []
        obtain ⟨g2, hg2, hk2, hs2⟩ := groupInsert_preserves m hv p hg
        obtain ⟨g3, hg3, hk3, hs3⟩ := ih (i + 1) _ errs g2 hg2
        exact ⟨g3, hg3, hk3.trans hk2, fun q hq => hs3 q (hs2 q hq)⟩
      | none => exact ih (i + 1) m _ g hg

theorem dupScanLoop_mem {H C P : Type} [DecidableEq H] {h : C → H}
    {fs : P → Option C} {p : P} {c : C} (hc : fs p = some c) :
    ∀ (ps : List P) (i : Nat) (m : List (H × List P)) (errs : List P),
      p ∈ ps → ∃ g ∈ (dupScanLoop h fs (fun _ => false) ps i m errs).1,
        g.1 = h c ∧ p ∈ g.2 := by
  intro ps
  induction ps with
  | nil => intro i m errs hp; cases hp
  | cons q ps ih =>
    intro i m errs hp
    rw [dupScanLoop, if_neg (by simp)]
    rcases List.mem_cons.mp hp with h1 | h1
    · subst h1
      rw [show get_file_hash h fs p = some (h c) by rw [get_file_hash, hc]; rfl]
      simp only []
      obtain ⟨g, hg, hk, hpg⟩ := groupInsert_self m (h c) p
      obtain ⟨g2, hg2, hk2, hs2⟩ := dupScanLoop_mono ps (i + 1) _ errs g hg
      exact ⟨g2, hg2, hk2.trans hk, hs2 p hpg⟩
    · cases hfp : get_file_hash h fs q with
      | some hv => exact ih (i + 1) _ errs h1
      | none => exact ih (i + 1) m _ h1

theorem groupInsert_keys {H P : Type} [DecidableEq H] :
    ∀ (m : List (H × List P)) (k : H) (p : P),
      (groupInsert m k p).map Prod.fst =
        if k ∈ m.map Prod.fst then m.map Prod.fst
        else m.map Prod.fst ++ [k] := by
  intro m
  induction m with
  | nil => intro k p; simp [groupInsert]
  | cons e rest ih =>
    intro k p
    obtain ⟨k0, ps⟩ := e
    rw [groupInsert]
    by_cases hk : k0 = k
    · subst hk
      rw [if_pos rfl]
      simp
    · rw [if_neg hk, List.map_cons, ih k p]
      by_cases hmem : k ∈ rest.map Prod.fst
      · rw [if_pos hmem, List.map_cons,
          if_pos (List.mem_cons_of_mem _ hmem)]
      · rw [if_neg hmem, List.map_cons, if_neg (by
          intro hc
          rcases List.mem_cons.mp hc with h1 | h1
          · exact hk h1.symm
          · exact hmem h1)]
        simp

theorem groupInsert_nodupkeys {H P : Type} [DecidableEq H]
    {m : List (H × List P)} (k : H) (p : P)
    (hnd : (m.map Prod.fst).Nodup) :
    ((groupInsert m k p).map Prod.fst).Nodup := by
  rw [groupInsert_keys]
  by_cases hmem : k ∈ m.map Prod.fst
  · rw [if_pos hmem]; exact hnd
  · rw [if_neg hmem]
    simp [List.nodup_append, hnd, hmem]

theorem dupScanLoop_nodupkeys {H C P : Type} [DecidableEq H] {h : C → H}
    {fs : P → Option C} {w : Nat → Bool} :
    ∀ (ps : List P) (i : Nat) (m : List (H × List P)) (errs : List P),
      (m.map Prod.fst).Nodup →
      (((dupScanLoop h fs w ps i m errs).1).map Prod.fst).Nodup := by
  intro ps
  induction ps with
  | nil => intro i m errs hnd; exact hnd
  | cons p ps ih =>
    intro i m errs hnd
    rw [dupScanLoop]
    by_cases hw : w i = true
    · rw [if_pos hw]; exact hnd
    · rw [if_neg hw]
      cases hfp : get_file_hash h fs p with
      | some hv => exact ih (i + 1) _ errs (groupInsert_nodupkeys hv p hnd)
      | none => exact ih (i + 1) m _ hnd

theorem eq_of_mem_nodupkeys {H P : Type} :
    ∀ {m : List (H × List P)}, (m.map Prod.fst).Nodup →
      ∀ {g1 g2 : H × List P}, g1 ∈ m → g2 ∈ m → g1.1 = g2.1 → g1 = g2 := by
  intro m
  induction m with
  | nil => intro _ g1 g2 h1; cases h1
  | cons e rest ih =>
    intro hnd g1 g2 h1 h2 hk
    rw [List.map_cons, List.nodup_cons] at hnd
    rcases List.mem_cons.mp h1 with ha | ha <;>
      rcases List.mem_cons.mp h2 with hb | hb
    · rw [ha, hb]
    · exact absurd (List.mem_map.mpr ⟨g2, hb, (ha ▸ hk).symm⟩) hnd.1
    · exact absurd (List.mem_map.mpr ⟨g1, ha, hb ▸ hk⟩) hnd.1
    · exact ih hnd.2 ha hb hk

theorem dupScanLoop_errs {H C P : Type} [DecidableEq H] {h : C → H}
    {fs : P → Option C} :
    ∀ (ps : List P) (i : Nat) (m : List (H × List P)) (errs : List P),
      (dupScanLoop h fs (fun _ => false) ps i m errs).2 =
        errs ++ ps.filter (fun q => (fs q).isNone) := by
  intro ps
  induction ps with
  | nil => intro i m errs; simp [dupScanLoop]
  | cons p ps ih =>
    intro i m errs
    rw [dupScanLoop, if_neg (by simp)]
    cases hf : fs p with
    | some c =>
      rw [show get_file_hash h fs p = some (h c) by rw [get_file_hash, hf]; rfl]
      simp only []
      rw [ih (i + 1) _ errs, List.filter_cons, if_neg (by simp [hf])]
    | none =>
      rw [show get_file_hash h fs p = none by rw [get_file_hash, hf]; rfl]
      simp only []
      rw [ih (i + 1) m _, List.filter_cons, if_pos (by simp [hf])]
      simp

theorem dupScanLoop_groups_filter {H C P : Type} [DecidableEq H] {h : C → H}
    {fs : P → Option C} :
    ∀ (ps : List P) (i j : Nat) (m : List (H × List P)) (errs errs2 : List P),
      (dupScanLoop h fs (fun _ => false) ps i m errs).1 =
        (dupScanLoop h fs (fun _ => false)
          (ps.filter (fun q => (fs q).isSome)) j m errs2).1 := by
  intro ps
  induction ps with
  | nil => intro i j m errs errs2; rfl
  | cons p ps ih =>
    intro i j m errs errs2
    rw [dupScanLoop, if_neg (by simp), List.filter_cons]
    cases hf : fs p with
    | some c =>
      rw [show get_file_hash h fs p = some (h c) by rw [get_file_hash, hf]; rfl]
      simp only []
      rw [if_pos (by simp [hf])]
      rw [dupScanLoop, if_neg (by simp),
        show get_file_hash h fs p = some (h c) by rw [get_file_hash, hf]; rfl]
      simp only []
      exact ih (i + 1) (j + 1) _ errs errs2
    | none =>
      rw [show get_file_hash h fs p = none by rw [get_file_hash, hf]; rfl]
      simp only []
      rw [if_neg (by simp [hf])]
      exact ih (i + 1) j m _ errs2

theorem dupScanLoop_threshold {H C P : Type} [DecidableEq H] {h : C → H}
    {fs : P → Option C} (k : Nat) :
    ∀ (ps : List P) (i : Nat) (m : List (H × List P)) (errs : List P),
      dupScanLoop h fs (fun j => decide (k ≤ j)) ps i m errs =
        dupScanLoop h fs (fun _ => false) (ps.take (k - i)) i m errs := by
  intro ps
  induction ps with
  | nil => intro i m errs; rw [List.take_nil, dupScanLoop, dupScanLoop]
  | cons p ps ih =>
    intro i m errs
    by_cases hik : k ≤ i
    · rw [dupScanLoop, if_pos (by simpa using hik),
        show k - i = 0 by omega, List.take_zero, dupScanLoop]
    · obtain ⟨d, hd⟩ : ∃ d, k - i = d + 1 := ⟨k - i - 1, by omega⟩
      rw [hd, List.take_succ_cons, dupScanLoop, if_neg (by simpa using hik),
        dupScanLoop, if_neg (by simp)]
      cases hfp : get_file_hash h fs p with
      | some hv =>
        simp only []
        rw [ih (i + 1) _ errs, show k - (i + 1) = d by omega]
      | none =>
        simp only []
        rw [ih (i + 1) m _, show k - (i + 1) = d by omega]

theorem two_le_length_of_mem {P : Type} {l : List P} {a b : P}
    (ha : a ∈ l) (hb : b ∈ l) (hab : a ≠ b) : 2 ≤ l.length := by
  rcases l with _ | ⟨x, _ | ⟨y, ys⟩⟩
  · cases ha
  · rw [List.mem_singleton] at ha hb
    exact absurd (ha.trans hb.symm) hab
  · simp only [List.length_cons]
    omega

/-! ## Claim C1 (duplicate grouping) -/

/-- C1: for files A and B with identical content the scan places them in
the same group; files whose fingerprints differ are never grouped
together; and every reported group has at least two members. -/
theorem find_duplicates_correct {H C P : Type} [DecidableEq H]
    (h : C → H) (fs : P → Option C) (paths : List P) (A B : P) (cA cB : C)
    (hA : A ∈ paths) (hB : B ∈ paths) (hAB : A ≠ B)
    (hfA : fs A = some cA) (hfB : fs B = some cB) :
    (cA = cB → ∃ g ∈ (find_duplicates h fs (fun _ => false) paths).1,
        A ∈ g.2 ∧ B ∈ g.2) ∧
      (h cA ≠ h cB → ∀ g ∈ (find_duplicates h fs (fun _ => false) paths).1,
        ¬(A ∈ g.2 ∧ B ∈ g.2)) ∧
      (∀ g ∈ (find_duplicates h fs (fun _ => false) paths).1,
        2 ≤ g.2.length) := by
  have hunfold : (find_duplicates h fs (fun _ => false) paths).1 =
      (dupScanLoop h fs (fun _ => false) paths 0 [] []).1.filter
        (fun g => decide (1 < g.2.length)) := rfl
  have hinv : ScanInv h fs (dupScanLoop h fs (fun _ => false) paths 0 [] []).1 :=
    dupScanLoop_inv paths 0 [] [] (fun g hg => by cases hg)
  refine ⟨?_, ?_, ?_⟩
  · intro hcc
    obtain ⟨gA, hgA, hkA, hmA⟩ :=
      dupScanLoop_mem hfA paths 0 ([] : List (H × List P)) [] hA
    obtain ⟨gB, hgB, hkB, hmB⟩ :=
      dupScanLoop_mem hfB paths 0 ([] : List (H × List P)) [] hB
    have hnd : (((dupScanLoop h fs (fun _ => false) paths 0 [] []).1).map
        Prod.fst).Nodup := dupScanLoop_nodupkeys paths 0 [] [] (by simp)
    have hgeq : gA = gB :=
      eq_of_mem_nodupkeys hnd hgA hgB (by rw [hkA, hkB, hcc])
    refine ⟨gA, ?_, hmA, hgeq ▸ hmB⟩
    rw [hunfold]
    refine List.mem_filter.mpr ⟨hgA, ?_⟩
    have := two_le_length_of_mem hmA (hgeq ▸ hmB) hAB
    simpa using this
  · intro hne g hg ⟨hA2, hB2⟩
    rw [hunfold] at hg
    have hgm := (List.mem_filter.mp hg).1
    obtain ⟨c1, hc1, hh1⟩ := hinv g hgm A hA2
    obtain ⟨c2, hc2, hh2⟩ := hinv g hgm B hB2
    have e1 : c1 = cA := by
      rw [hfA] at hc1
      exact (Option.some_inj.mp hc1).symm
    have e2 : c2 = cB := by
      rw [hfB] at hc2
      exact (Option.some_inj.mp hc2).symm
    exact hne (by rw [← e1, ← e2, hh1, hh2])
  · intro g hg
    rw [hunfold] at hg
    have := (List.mem_filter.mp hg).2
    simp only [decide_eq_true_eq] at this
    omega

/-- Witness for `find_duplicates_correct`: two distinct paths 0 and 1
whose contents are both 0 under the identity fingerprint end up in one
group of at least two members. -/
theorem find_duplicates_correct_witness :
    (0 : Nat) ≠ 1 ∧
      (∃ g ∈ (find_duplicates (fun c : Nat => c) (fun _ : Nat => some 0)
        (fun _ => false) [0, 1]).1, (0 : Nat) ∈ g.2 ∧ (1 : Nat) ∈ g.2) :=
  ⟨by decide,
    (find_duplicates_correct (fun c : Nat => c) (fun _ : Nat => some 0)
      [0, 1] 0 1 0 0 (by decide) (by decide) (by decide) rfl rfl).1 rfl⟩

/-! ## Claim C9 (unreadable files are skipped, reported, scan continues) -/

/-- C9: a file whose fingerprint computation fails is reported to the
caller among the per-file errors, appears in no duplicate group, and the
groups are exactly those computed from the readable files, so a single
unreadable file never aborts the scan. -/
theorem find_duplicates_unreadable {H C P : Type} [DecidableEq H]
    (h : C → H) (fs : P → Option C) (paths : List P) (p : P)
    (hp : p ∈ paths) (hfp : fs p = none) :
    p ∈ (find_duplicates h fs (fun _ => false) paths).2 ∧
      (∀ g ∈ (find_duplicates h fs (fun _ => false) paths).1, p ∉ g.2) ∧
      (find_duplicates h fs (fun _ => false) paths).1 =
        (find_duplicates h fs (fun _ => false)
          (paths.filter (fun q => (fs q).isSome))).1 := by
  have hinv : ScanInv h fs (dupScanLoop h fs (fun _ => false) paths 0 [] []).1 :=
    dupScanLoop_inv paths 0 [] [] (fun g hg => by cases hg)
  refine ⟨?_, ?_, ?_⟩
  · have : (find_duplicates h fs (fun _ => false) paths).2 =
        paths.filter (fun q => (fs q).isNone) := by
      have he := @dupScanLoop_errs H C P inferInstance h fs paths 0 [] []
      simpa [find_duplicates] using he
    rw [this]
    exact List.mem_filter.mpr ⟨hp, by simp [hfp]⟩
  · intro g hg hpg
    have hgm := (List.mem_filter.mp hg).1
    obtain ⟨c, hc, _⟩ := hinv g hgm p hpg
    rw [hfp] at hc
    cases hc
  · have : (dupScanLoop h fs (fun _ => false) paths 0 [] []).1 =
        (dupScanLoop h fs (fun _ => false)
          (paths.filter (fun q => (fs q).isSome)) 0 [] []).1 :=
      dupScanLoop_groups_filter paths 0 0 [] [] []
    simp only [find_duplicates]
    rw [this]

/-- Witness for `find_duplicates_unreadable`: path 0 is unreadable while
path 1 reads fine; 0 lands in the error list and the groups equal those
of the readable files alone. -/
theorem find_duplicates_unreadable_witness :
    (0 : Nat) ∈ (find_duplicates (fun c : Nat => c)
      (fun q : Nat => if q = 0 then none else some 5)
      (fun _ => false) [0, 1]).2 :=
  (find_duplicates_unreadable (fun c : Nat => c)
    (fun q : Nat => if q = 0 then none else some 5) [0, 1] 0
    (by decide) (by decide)).1

/-! ## Claim C10 (a cancelled scan returns partial results) -/

/-- C10: cancelling the scan after the first k files yields exactly the
duplicate groups (of size at least two) and errors computed from those
first k files — partial results are kept, not discarded. -/
theorem find_duplicates_cancelled {H C P : Type} [DecidableEq H]
    (h : C → H) (fs : P → Option C) (paths : List P) (k : Nat) :
    find_duplicates h fs (fun i => decide (k ≤ i)) paths =
      find_duplicates h fs (fun _ => false) (paths.take k) := by
  simp only [find_duplicates]
  rw [dupScanLoop_threshold k paths 0 [] [], Nat.sub_zero]

/-! ## The bulk copy engine

`CopyWorker` (source lines 641–743) copies `(path, size)` tasks into a
destination directory.  The destination is modelled as an
insertion-ordered association list from file name to content, a file's
content as the list of chunks written to it, and a source file's read
behaviour as the chunk sequence `src.read(65536)` yields plus a flag
telling whether an `OSError` strikes after those chunks.  The cancel
flag is set asynchronously and is monotone (once set it stays set); the
worker observes it only at its reads, so the flag is modelled by the
read count `c` at which it becomes visible: the n-th read returns true
iff `c ≤ n`.  Reads happen once per loop iteration in `run`, once per
chunk in `copy_file_with_progress`, and once in the final
`if not self.canceled` check. -/

/-- A chunk of bytes as produced by one `src.read(65536)` call. -/
abbrev Chunk : Type := List Nat

/-- One copy task: basename, the size `os.path.getsize` reports, the
chunks a read of the file yields, whether an OSError strikes after those
chunks, and the OS error text `str(e)`. -/
structure CTask where
  name : Str
  size : Nat
  chunks : List Chunk
  err : Bool
  emsg : Str
deriving DecidableEq

/-- Destination directory state: file name to written content. -/
abbrev DestFS : Type := List (Str × List Chunk)

/-- The names present in a destination directory. -/
def names (d : DestFS) : List Str := d.map Prod.fst

/-- Python open of the destination for writing: the file is created
empty (truncated if it already exists). -/
def writeOpen (d : DestFS) (p : Str) : DestFS :=
  if p ∈ names d then d.map (fun e => if e.1 = p then (e.1, ([] : List Chunk)) else e)
  else d ++ [(p, [])]

/-- `dst.write(chunk)`: append one chunk to the file's content. -/
def writeChunk (d : DestFS) (p : Str) (ch : Chunk) : DestFS :=
  d.map (fun e => if e.1 = p then (e.1, e.2 ++ [ch]) else e)

/-- `os.remove(path)`. -/
def removeFile (d : DestFS) (p : Str) : DestFS :=
  d.filter (fun e => !decide (e.1 = p))

/-- The monotone cancel flag: the n-th read of `self.canceled` returns
true iff the flag became visible by read `c`. -/
def cancelAt (c : Nat) : Nat → Bool := fun j => decide (c ≤ j)

/-- Decimal rendering of a counter, most significant digit first, as
code points (48–57): Python's formatting of `{counter}`. -/
def toDec (n : Nat) : Str :=
  if n < 10 then [48 + n]
  else toDec (n / 10) ++ [48 + n % 10]
decreasing_by exact Nat.div_lt_self (by omega) (by omega)

/-- The Python f-string `f"{base}_{counter}{ext}"` (95 is the
underscore). -/
def mkName (base ext : Str) (k : Nat) : Str := base ++ 95 :: (toDec k ++ ext)

/-- The while-loop of `get_unique_dest_path`: try `base_k ext`,
`base_(k+1) ext`, … until a name absent from the destination is found.
The fuel only bounds the search; it is always sufficient at the call
site (see `get_unique_dest_path_not_mem`). -/
def findFree (dn : List Str) (base ext : Str) : Nat → Nat → Str
  | k, 0 => mkName base ext k
  | k, fuel + 1 =>
    if mkName base ext k ∈ dn then findFree dn base ext (k + 1) fuel
    else mkName base ext k

/-- CopyWorker.get_unique_dest_path (source lines 658–671): keep the
original basename when it is free, otherwise split it with
`os.path.splitext` and append `_1`, `_2`, … before the extension until
a free name appears. -/
def get_unique_dest_path (dn : List Str) (filename : Str) : Str :=
  if filename ∈ dn then
    findFree dn (splitext filename).1 (splitext filename).2 1 (dn.length + 1)
  else filename

/-- The per-chunk loop of `copy_file_with_progress` (source lines
680–703): each iteration reads a chunk, reads the cancel flag — on
cancellation the partially written destination file is removed and the
copy fails — and otherwise writes the chunk.  `i` is the index of the
next flag read. -/
def copyChunks (cancel : Nat → Bool) :
    List Chunk → Nat → DestFS → Str → DestFS × Bool × Nat
  | [], i, d, _ => (d, true, i)
  | ch :: rest, i, d, path =>
    if cancel i then (removeFile d path, false, i + 1)
    else copyChunks cancel rest (i + 1) (writeChunk d path ch) path

/-- The error message `f"Error copying {basename}: {e}"` emitted on a
per-file OSError (source line 708). -/
def errMsg (name etext : Str) : Str :=
  strL "Error copying " ++ name ++ strL ": " ++ etext

/-- Result of copying one file: new destination state, success flag,
next flag-read index, emitted error messages. -/
structure FileResult where
  dest : DestFS
  ok : Bool
  next : Nat
  errs : List Str
deriving DecidableEq

/-- CopyWorker.copy_file_with_progress (source lines 673–714): open the
destination file (created empty), stream the chunks with a per-chunk
cancel check, and on an OSError emit the message naming the file and
remove the partial destination file. -/
def copy_file_with_progress (cancel : Nat → Bool) (i : Nat) (d : DestFS)
    (path : Str) (t : CTask) : FileResult :=
  let d0 := writeOpen d path
  let r := copyChunks cancel t.chunks i d0 path
  if r.2.1 then
    if t.err then ⟨removeFile r.1 path, false, r.2.2, [errMsg t.name t.emsg]⟩
    else ⟨r.1, true, r.2.2, []⟩
  else ⟨r.1, false, r.2.2, []⟩

/-- State of the run loop when it stops: destination, files copied,
emitted errors, next flag-read index, and whether the loop was left
normally (list exhausted or `break`) rather than by the early `return`
after a failed copy. -/
structure LoopResult where
  dest : DestFS
  copied : Nat
  errs : List Str
  next : Nat
  normal : Bool
deriving DecidableEq

/-- The loop of CopyWorker.run (source lines 726–736): per task read the
cancel flag (`break` when set), resolve the collision-free destination
path, copy; a failed copy returns from `run` at once (no later task is
processed). -/
def runLoop (cancel : Nat → Bool) :
    List CTask → Nat → DestFS → Nat → List Str → LoopResult
  | [], i, d, copied, errs => ⟨d, copied, errs, i, true⟩
  | t :: ts, i, d, copied, errs =>
    if cancel i then ⟨d, copied, errs, i + 1, true⟩
    else
      let path := get_unique_dest_path (names d) t.name
      let r := copy_file_with_progress cancel (i + 1) d path t
      if r.ok then runLoop cancel ts r.next r.dest (copied + 1) (errs ++ r.errs)
      else ⟨r.dest, copied, errs ++ r.errs, r.next, false⟩

/-- Outcome of a whole copy job. -/
structure RunOut where
  dest : DestFS
  filesCopied : Nat
  errors : List Str
  finished : Bool
deriving DecidableEq

/-- CopyWorker.run (source lines 724–739): run the loop from read index
0; after a normal loop exit the final `if not self.canceled` read
decides whether `finished` is emitted; the early `return` after a failed
copy never emits it. -/
def runWorker (cancel : Nat → Bool) (tasks : List CTask) (d : DestFS) :
    RunOut :=
  let r := runLoop cancel tasks 0 d 0 []
  if r.normal then ⟨r.dest, r.copied, r.errs, !cancel r.next⟩
  else ⟨r.dest, r.copied, r.errs, false⟩

/-- Outcome of copy_selected_files: either the pre-flight space check
fails (the destination is returned untouched and no worker ever runs)
or the worker runs to an outcome. -/
inductive StartResult where
  | insufficientSpace (dest : DestFS)
  | ran (out : RunOut)
deriving DecidableEq

/-- copy_selected_files (source lines 745–798): sum the task sizes; if
the total exceeds the destination's recorded free space, report the
insufficient-space error and return before creating the worker;
otherwise start the worker. -/
def copy_selected_files (free : Nat) (cancel : Nat → Bool)
    (tasks : List CTask) (d : DestFS) : StartResult :=
  if (tasks.map CTask.size).sum > free then .insufficientSpace d
  else .ran (runWorker cancel tasks d)

/-- The expected effect of fully copying each task in order at its
resolved unique destination path. -/
def copyAll (d : DestFS) : List CTask → DestFS
  | [] => d
  | t :: ts =>
    copyAll (d ++ [(get_unique_dest_path (names d) t.name, t.chunks)]) ts

/-- Flag reads consumed by fully processing one task: one at the loop
top, one per chunk. -/
def taskChecks (t : CTask) : Nat := 1 + t.chunks.length

/-- Flag reads consumed by fully processing a task list. -/
def checksList (ts : List CTask) : Nat := (ts.map taskChecks).sum

/-! ### The suffix search finds the least free name -/

/-- Decimal parsing, the left inverse of `toDec`. -/
def fromDec (s : Str) : Nat := s.foldl (fun a c => a * 10 + (c - 48)) 0

theorem fromDec_toDec (n : Nat) : fromDec (toDec n) = n := by
  induction n using Nat.strong_induction_on with
  | _ n ih =>
    rw [toDec]
    by_cases h : n < 10
    · rw [if_pos h]
      simp [fromDec]
    · rw [if_neg h]
      rw [fromDec, List.foldl_append]
      have hr : List.foldl (fun a c => a * 10 + (c - 48)) 0 (toDec (n / 10)) =
          n / 10 := ih (n / 10) (Nat.div_lt_self (by omega) (by omega))
      rw [hr]
      simp only [List.foldl_cons, List.foldl_nil]
      omega

theorem toDec_injective : Function.Injective toDec := by
  intro a b hab
  have := congrArg fromDec hab
  rwa [fromDec_toDec, fromDec_toDec] at this

theorem mkName_injective (base ext : Str) :
    Function.Injective (mkName base ext) := by
  intro a b hab
  rw [mkName, mkName] at hab
  have h1 := List.append_cancel_left hab
  have h2 : toDec a ++ ext = toDec b ++ ext := by injection h1
  exact toDec_injective (List.append_cancel_right h2)

theorem exists_free_suffix (dn : List Str) (base ext : Str) :
    ∃ j, 1 ≤ j ∧ j < 1 + (dn.length + 1) ∧ mkName base ext j ∉ dn := by
  by_contra hc
  push_neg at hc
  have hsub : (List.range' 1 (dn.length + 1)).map (mkName base ext) ⊆ dn := by
    intro x hx
    obtain ⟨j, hj, rfl⟩ := List.mem_map.mp hx
    have hjr := List.mem_range'_1.mp hj
    exact hc j (by omega) (by omega)
  have hnd : ((List.range' 1 (dn.length + 1)).map (mkName base ext)).Nodup :=
    (List.nodup_range' _ _).map (mkName_injective base ext)
  have hlen := (List.subperm_of_subset hnd hsub).length_le
  rw [List.length_map, List.length_range'] at hlen
  omega

theorem findFree_spec (dn : List Str) (base ext : Str) :
    ∀ (fuel k : Nat),
      (∃ j, k ≤ j ∧ j < k + fuel ∧ mkName base ext j ∉ dn) →
      ∃ j, k ≤ j ∧ findFree dn base ext k fuel = mkName base ext j ∧
        mkName base ext j ∉ dn ∧
        ∀ i, k ≤ i → i < j → mkName base ext i ∈ dn := by
  intro fuel
  induction fuel with
  | zero =>
    intro k hex
    obtain ⟨j, h1, h2, _⟩ := hex
    omega
  | succ fuel ih =>
    intro k hex
    rw [findFree]
    by_cases hk : mkName base ext k ∈ dn
    · rw [if_pos hk]
      obtain ⟨j, h1, h2, h3⟩ := hex
      have hjk : j ≠ k := fun hc => h3 (hc ▸ hk)
      obtain ⟨j2, g1, g2, g3, g4⟩ := ih (k + 1) ⟨j, by omega, by omega, h3⟩
      refine ⟨j2, by omega, g2, g3, fun i hi1 hi2 => ?_⟩
      by_cases hik : i = k
      · exact hik ▸ hk
      · exact g4 i (by omega) hi2
    · rw [if_neg hk]
      exact ⟨k, le_refl k, rfl, hk, fun i hi1 hi2 => by omega⟩

/-- The resolved destination path never collides with an existing
name. -/
theorem get_unique_dest_path_not_mem (dn : List Str) (filename : Str) :
    get_unique_dest_path dn filename ∉ dn := by
  rw [get_unique_dest_path]
  by_cases hf : filename ∈ dn
  · rw [if_pos hf]
    obtain ⟨j, h1, h2, h3⟩ := exists_free_suffix dn (splitext filename).1
      (splitext filename).2
    obtain ⟨j2, g1, g2, g3, g4⟩ := findFree_spec dn (splitext filename).1
      (splitext filename).2 (dn.length + 1) 1 ⟨j, h1, by omega, h3⟩
    rw [g2]
    exact g3
  · rw [if_neg hf]
    exact hf

/-! ### File-level copy lemmas -/

theorem writeOpen_not_mem {d : DestFS} {p : Str} (hp : p ∉ names d) :
    writeOpen d p = d ++ [(p, [])] := by
  rw [writeOpen, if_neg hp]

theorem writeChunk_append {d : DestFS} {p : Str} (hp : p ∉ names d)
    (l : List Chunk) (ch : Chunk) :
    writeChunk (d ++ [(p, l)]) p ch = d ++ [(p, l ++ [ch])] := by
  rw [writeChunk, List.map_append]
  have h1 : d.map (fun e => if e.1 = p then (e.1, e.2 ++ [ch]) else e) = d := by
    have hfix : ∀ e ∈ d, (if e.1 = p then (e.1, e.2 ++ [ch]) else e) = e := by
      intro e he
      rw [if_neg]
      intro hc
      exact hp (by rw [← hc]; exact List.mem_map.mpr ⟨e, he, rfl⟩)
    rw [List.map_congr_left hfix]
    exact List.map_id d
  rw [h1]
  simp

theorem removeFile_append {d : DestFS} {p : Str} (hp : p ∉ names d)
    (l : List Chunk) : removeFile (d ++ [(p, l)]) p = d := by
  rw [removeFile, List.filter_append]
  have h1 : d.filter (fun e => !decide (e.1 = p)) = d := by
    refine List.filter_eq_self.mpr (fun e he => ?_)
    simp only [Bool.not_eq_true', decide_eq_false_iff_not]
    intro hc
    exact hp (by rw [← hc]; exact List.mem_map.mpr ⟨e, he, rfl⟩)
  rw [h1]
  simp

theorem foldl_writeChunk {d : DestFS} {p : Str} (hp : p ∉ names d) :
    ∀ (l : List Chunk) (acc : List Chunk),
      l.foldl (fun dd ch => writeChunk dd p ch) (d ++ [(p, acc)]) =
        d ++ [(p, acc ++ l)] := by
  intro l
  induction l with
  | nil => intro acc; simp
  | cons ch rest ih =>
    intro acc
    rw [List.foldl_cons, writeChunk_append hp, ih (acc ++ [ch])]
    simp

theorem copyChunks_no_cancel {c : Nat} :
    ∀ (chs : List Chunk) (i : Nat) (d : DestFS) (p : Str),
      i + chs.length ≤ c →
      copyChunks (cancelAt c) chs i d p =
        (chs.foldl (fun dd ch => writeChunk dd p ch) d, true, i + chs.length) := by
  intro chs
  induction chs with
  | nil => intro i d p _; rw [copyChunks]; simp
  | cons ch rest ih =>
    intro i d p hc
    rw [copyChunks, if_neg (by
      simp only [cancelAt, decide_eq_true_eq, List.length_cons] at hc ⊢
      omega)]
    rw [ih (i + 1) _ p (by simp only [List.length_cons] at hc; omega)]
    simp only [List.foldl_cons, List.length_cons]
    refine congrArg _ ?_
    refine congrArg _ ?_
    omega

theorem copyChunks_cancel {c : Nat} {dbase : DestFS} {p : Str}
    (hp : p ∉ names dbase) :
    ∀ (chs : List Chunk) (i : Nat) (acc : List Chunk),
      i ≤ c → c < i + chs.length →
      copyChunks (cancelAt c) chs i (dbase ++ [(p, acc)]) p =
        (dbase, false, c + 1) := by
  intro chs
  induction chs with
  | nil => intro i acc h1 h2; simp at h2; omega
  | cons ch rest ih =>
    intro i acc h1 h2
    by_cases hic : c ≤ i
    · have : c = i := by omega
      subst this
      rw [copyChunks, if_pos (by simp [cancelAt]), removeFile_append hp]
    · rw [copyChunks, if_neg (by simp [cancelAt]; omega),
        writeChunk_append hp]
      exact ih (i + 1) (acc ++ [ch]) (by omega)
        (by simp only [List.length_cons] at h2; omega)

theorem copy_file_success {c : Nat} {d : DestFS} {p : Str}
    (hp : p ∉ names d) {t : CTask} (ht : t.err = false) (i : Nat)
    (hc : i + t.chunks.length ≤ c) :
    copy_file_with_progress (cancelAt c) i d p t =
      ⟨d ++ [(p, t.chunks)], true, i + t.chunks.length, []⟩ := by
  rw [copy_file_with_progress, writeOpen_not_mem hp,
    copyChunks_no_cancel t.chunks i _ p hc]
  simp only [ht]
  rw [foldl_writeChunk hp t.chunks []]
  simp

theorem copy_file_cancelled {c : Nat} {d : DestFS} {p : Str}
    (hp : p ∉ names d) (t : CTask) (i : Nat)
    (h1 : i ≤ c) (h2 : c < i + t.chunks.length) :
    copy_file_with_progress (cancelAt c) i d p t = ⟨d, false, c + 1, []⟩ := by
  rw [copy_file_with_progress, writeOpen_not_mem hp,
    copyChunks_cancel hp t.chunks i [] h1 h2]
  simp

theorem copy_file_error {c : Nat} {d : DestFS} {p : Str}
    (hp : p ∉ names d) {t : CTask} (ht : t.err = true) (i : Nat)
    (hc : i + t.chunks.length ≤ c) :
    copy_file_with_progress (cancelAt c) i d p t =
      ⟨d, false, i + t.chunks.length, [errMsg t.name t.emsg]⟩ := by
  rw [copy_file_with_progress, writeOpen_not_mem hp,
    copyChunks_no_cancel t.chunks i _ p hc]
  simp only [ht]
  rw [foldl_writeChunk hp t.chunks []]
  simp only [List.nil_append]
  rw [removeFile_append hp]
  simp

/-! ### Run-level lemmas -/

theorem checksList_nil : checksList [] = 0 := rfl

theorem checksList_cons (t : CTask) (ts : List CTask) :
    checksList (t :: ts) = 1 + t.chunks.length + checksList ts := by
  rw [checksList, List.map_cons, List.sum_cons, taskChecks, checksList]

theorem cancelAt_false {c i : Nat} (h : i < c) : cancelAt c i = false := by
  simp only [cancelAt, decide_eq_false_iff_not]
  omega

theorem runLoop_all_ok {c : Nat} :
    ∀ (ts : List CTask) (i : Nat) (d : DestFS) (copied : Nat) (errs : List Str),
      (∀ t ∈ ts, t.err = false) → i + checksList ts ≤ c →
      runLoop (cancelAt c) ts i d copied errs =
        ⟨copyAll d ts, copied + ts.length, errs, i + checksList ts, true⟩ := by
  intro ts
  induction ts with
  | nil =>
    intro i d copied errs _ _
    rw [runLoop, copyAll, checksList_nil]
    simp
  | cons t ts ih =>
    intro i d copied errs herr hc
    rw [checksList_cons] at hc
    have hp : get_unique_dest_path (names d) t.name ∉ names d :=
      get_unique_dest_path_not_mem _ _
    rw [runLoop, cancelAt_false (by omega)]
    simp only [Bool.false_eq_true, if_false]
    rw [copy_file_success hp (herr t (List.mem_cons_self t ts)) (i + 1) (by omega)]
    simp only []
    rw [ih (i + 1 + t.chunks.length)
      (d ++ [(get_unique_dest_path (names d) t.name, t.chunks)])
      (copied + 1) (errs ++ [])
      (fun u hu => herr u (List.mem_cons_of_mem _ hu)) (by omega)]
    rw [copyAll, List.append_nil, checksList_cons, List.length_cons]
    have e1 : copied + 1 + ts.length = copied + (ts.length + 1) := by omega
    have e2 : i + 1 + t.chunks.length + checksList ts =
        i + (1 + t.chunks.length + checksList ts) := by omega
    rw [e1, e2]
    exact if_pos trivial

theorem runLoop_cancel_mid {c : Nat} :
    ∀ (ts : List CTask) (j : Nat) (i : Nat) (d : DestFS) (copied : Nat)
      (errs : List Str) (hj : j < ts.length),
      (∀ t ∈ ts.take j, t.err = false) →
      i + checksList (ts.take j) < c →
      c ≤ i + checksList (ts.take j) + (ts.get ⟨j, hj⟩).chunks.length →
      runLoop (cancelAt c) ts i d copied errs =
        ⟨copyAll d (ts.take j), copied + j, errs, c + 1, false⟩ := by
  intro ts
  induction ts with
  | nil =>
    intro j i d copied errs hj
    simp at hj
  | cons t ts ih =>
    intro j i d copied errs hj herr h1 h2
    have hp : get_unique_dest_path (names d) t.name ∉ names d :=
      get_unique_dest_path_not_mem _ _
    cases j with
    | zero =>
      rw [List.take_zero, checksList_nil] at h1 h2
      have hget : (t :: ts).get ⟨0, hj⟩ = t := rfl
      rw [hget] at h2
      rw [List.take_zero, copyAll]
      rw [runLoop, cancelAt_false (by omega)]
      simp only [Bool.false_eq_true, if_false]
      rw [copy_file_cancelled hp t (i + 1) (by omega) (by omega)]
      simp
    | succ j =>
      rw [List.take_succ_cons, checksList_cons] at h1 h2
      have hjlt : j < ts.length := by
        simp only [List.length_cons] at hj
        omega
      have hget : (t :: ts).get ⟨j + 1, hj⟩ = ts.get ⟨j, hjlt⟩ := rfl
      rw [hget] at h2
      have hmem : t ∈ List.take (j + 1) (t :: ts) := by
        rw [List.take_succ_cons]
        exact List.mem_cons_self t (List.take j ts)
      rw [List.take_succ_cons, copyAll]
      rw [runLoop, cancelAt_false (by omega)]
      simp only [Bool.false_eq_true, if_false]
      rw [copy_file_success hp (herr t hmem) (i + 1) (by omega)]
      simp only []
      rw [ih j (i + 1 + t.chunks.length)
        (d ++ [(get_unique_dest_path (names d) t.name, t.chunks)])
        (copied + 1) (errs ++ []) hjlt
        (fun u hu => herr u (by
          rw [List.take_succ_cons]
          exact List.mem_cons_of_mem _ hu))
        (by omega) (by omega)]
      rw [List.append_nil]
      have e1 : copied + 1 + j = copied + (j + 1) := by omega
      rw [e1]
      exact if_pos trivial

theorem runLoop_error_mid {c : Nat} :
    ∀ (ts : List CTask) (j : Nat) (i : Nat) (d : DestFS) (copied : Nat)
      (errs : List Str) (hj : j < ts.length),
      (∀ t ∈ ts.take j, t.err = false) →
      (ts.get ⟨j, hj⟩).err = true →
      i + checksList (ts.take j) + 1 + (ts.get ⟨j, hj⟩).chunks.length ≤ c →
      runLoop (cancelAt c) ts i d copied errs =
        ⟨copyAll d (ts.take j), copied + j,
          errs ++ [errMsg (ts.get ⟨j, hj⟩).name (ts.get ⟨j, hj⟩).emsg],
          i + checksList (ts.take j) + 1 + (ts.get ⟨j, hj⟩).chunks.length,
          false⟩ := by
  intro ts
  induction ts with
  | nil =>
    intro j i d copied errs hj
    simp at hj
  | cons t ts ih =>
    intro j i d copied errs hj herr herrj hc
    have hp : get_unique_dest_path (names d) t.name ∉ names d :=
      get_unique_dest_path_not_mem _ _
    cases j with
    | zero =>
      rw [List.take_zero, checksList_nil] at hc ⊢
      have hget : (t :: ts).get ⟨0, hj⟩ = t := rfl
      rw [hget] at herrj hc ⊢
      rw [copyAll]
      rw [runLoop, cancelAt_false (by omega)]
      simp only [Bool.false_eq_true, if_false]
      rw [copy_file_error hp herrj (i + 1) (by omega)]
      simp only []
      have e1 : i + 1 + t.chunks.length = i + 0 + 1 + t.chunks.length := by omega
      rw [← e1]
      exact if_neg (by simp)
    | succ j =>
      rw [List.take_succ_cons, checksList_cons] at hc ⊢
      have hjlt : j < ts.length := by
        simp only [List.length_cons] at hj
        omega
      have hget : (t :: ts).get ⟨j + 1, hj⟩ = ts.get ⟨j, hjlt⟩ := rfl
      rw [hget] at herrj hc ⊢
      have hmem : t ∈ List.take (j + 1) (t :: ts) := by
        rw [List.take_succ_cons]
        exact List.mem_cons_self t (List.take j ts)
      rw [copyAll]
      rw [runLoop, cancelAt_false (by omega)]
      simp only [Bool.false_eq_true, if_false]
      rw [copy_file_success hp (herr t hmem) (i + 1) (by omega)]
      simp only []
      rw [ih j (i + 1 + t.chunks.length)
        (d ++ [(get_unique_dest_path (names d) t.name, t.chunks)])
        (copied + 1) (errs ++ []) hjlt
        (fun u hu => herr u (by
          rw [List.take_succ_cons]
          exact List.mem_cons_of_mem _ hu))
        herrj (by omega)]
      rw [List.append_nil]
      have e1 : copied + 1 + j = copied + (j + 1) := by omega
      have e2 : i + 1 + t.chunks.length + checksList (List.take j ts) + 1 +
          (ts.get ⟨j, hjlt⟩).chunks.length =
        i + (1 + t.chunks.length + checksList (List.take j ts)) + 1 +
          (ts.get ⟨j, hjlt⟩).chunks.length := by omega
      rw [e1, e2]
      exact if_pos trivial

/-! ## Claim C2 (pre-flight space check) -/

/-- C2: whenever the total size of the tasks exceeds the destination's
free space, starting the copy fails with the insufficient-space error
before any worker is created: the destination is returned untouched, so
zero bytes are written. -/
theorem copy_selected_files_insufficient (free : Nat) (cancel : Nat → Bool)
    (tasks : List CTask) (d : DestFS)
    (h : free < (tasks.map CTask.size).sum) :
    copy_selected_files free cancel tasks d = .insufficientSpace d := by
  rw [copy_selected_files, if_pos (by omega)]

/-- Witness for `copy_selected_files_insufficient`: tasks of 100 and 200
bytes against 250 bytes free fail fast with nothing copied. -/
theorem copy_selected_files_insufficient_witness :
    copy_selected_files 250 (cancelAt 1000)
      [⟨strL "fileA", 100, [List.replicate 100 0], false, []⟩,
        ⟨strL "fileB", 200, [List.replicate 200 0], false, []⟩] [] =
      .insufficientSpace [] :=
  copy_selected_files_insufficient 250 (cancelAt 1000)
    [⟨strL "fileA", 100, [List.replicate 100 0], false, []⟩,
      ⟨strL "fileB", 200, [List.replicate 200 0], false, []⟩] []
    (by decide)

/-! ## Claim C3 (collision resolution by numeric suffix) -/

/-- C3: a colliding source name is resolved by appending `_1`, `_2`, …
before the extension, taking the first counter whose name is absent; a
non-colliding name is kept as is; and copying one file writes only the
resolved fresh name, leaving every pre-existing destination entry (the
colliding file included) unchanged. -/
theorem get_unique_dest_path_spec (dn : List Str) (filename : Str) :
    (filename ∉ dn → get_unique_dest_path dn filename = filename) ∧
      (filename ∈ dn → ∃ k, 1 ≤ k ∧
        get_unique_dest_path dn filename =
          mkName (splitext filename).1 (splitext filename).2 k ∧
        mkName (splitext filename).1 (splitext filename).2 k ∉ dn ∧
        ∀ j, 1 ≤ j → j < k →
          mkName (splitext filename).1 (splitext filename).2 j ∈ dn) ∧
      (∀ (d : DestFS) (t : CTask) (c : Nat), t.err = false →
        1 + t.chunks.length < c →
        runWorker (cancelAt c) [t] d =
          ⟨d ++ [(get_unique_dest_path (names d) t.name, t.chunks)], 1, [],
            true⟩) := by
  refine ⟨?_, ?_, ?_⟩
  · intro hf
    rw [get_unique_dest_path, if_neg hf]
  · intro hf
    rw [get_unique_dest_path, if_pos hf]
    obtain ⟨j, h1, h2, h3⟩ := exists_free_suffix dn (splitext filename).1
      (splitext filename).2
    obtain ⟨k, g1, g2, g3, g4⟩ := findFree_spec dn (splitext filename).1
      (splitext filename).2 (dn.length + 1) 1 ⟨j, h1, by omega, h3⟩
    exact ⟨k, g1, g2, g3, g4⟩
  · intro d t c herrt hlen
    have hall : ∀ u ∈ [t], u.err = false := by
      intro u hu
      rcases List.mem_cons.mp hu with h | h
      · exact h ▸ herrt
      · cases h
    have hck : checksList [t] = 1 + t.chunks.length + 0 := checksList_cons t []
    rw [runWorker, runLoop_all_ok [t] 0 d 0 [] hall (by rw [hck]; omega)]
    simp only []
    rw [if_pos trivial]
    have hflag : cancelAt c (0 + checksList [t]) = false := by
      rw [hck]
      exact cancelAt_false (by omega)
    rw [hflag, copyAll, copyAll]
    rfl

/-- Witness for `get_unique_dest_path_spec`: with `a.txt` and `a_1.txt`
already present, the colliding name `a.txt` resolves to the counter 2,
i.e. `a_2.txt`, and `a_1.txt` was indeed taken. -/
theorem get_unique_dest_path_spec_witness :
    ∃ k, 1 ≤ k ∧
      get_unique_dest_path [strL "a.txt", strL "a_1.txt"] (strL "a.txt") =
        mkName (splitext (strL "a.txt")).1 (splitext (strL "a.txt")).2 k ∧
      mkName (splitext (strL "a.txt")).1 (splitext (strL "a.txt")).2 k ∉
        [strL "a.txt", strL "a_1.txt"] ∧
      ∀ j, 1 ≤ j → j < k →
        mkName (splitext (strL "a.txt")).1 (splitext (strL "a.txt")).2 j ∈
          [strL "a.txt", strL "a_1.txt"] :=
  (get_unique_dest_path_spec [strL "a.txt", strL "a_1.txt"]
    (strL "a.txt")).2.1 (by decide)

/-! ## Claim C4 (cancellation mid-file) -/

/-- C4: if cancellation becomes visible during the copy of task `j`
(after its loop-top check, at one of its per-chunk checks), the
partially written destination file is deleted, no further task is
processed, and the destination holds exactly the original entries plus
the tasks fully copied before task `j`; no error is emitted and the job
does not finish. -/
theorem runWorker_cancel_mid_file (c : Nat) (tasks : List CTask) (d : DestFS)
    (j : Nat) (hj : j < tasks.length)
    (herr : ∀ t ∈ tasks.take j, t.err = false)
    (hc1 : checksList (tasks.take j) < c)
    (hc2 : c ≤ checksList (tasks.take j) + (tasks.get ⟨j, hj⟩).chunks.length) :
    runWorker (cancelAt c) tasks d =
      ⟨copyAll d (tasks.take j), j, [], false⟩ := by
  rw [runWorker,
    runLoop_cancel_mid tasks j 0 d 0 [] hj herr (by omega) (by omega)]
  simp

/-- Witness for `runWorker_cancel_mid_file`: two tasks; the flag becomes
visible at read 3, i.e. during the second task's chunks; the first task's
file survives in full, the second leaves no partial file. -/
theorem runWorker_cancel_mid_file_witness :
    runWorker (cancelAt 3)
      [⟨strL "a", 1, [[7]], false, []⟩,
        ⟨strL "b", 2, [[8], [9]], false, []⟩] [] =
      ⟨[(strL "a", [[7]])], 1, [], false⟩ :=
  (runWorker_cancel_mid_file 3
    [⟨strL "a", 1, [[7]], false, []⟩, ⟨strL "b", 2, [[8], [9]], false, []⟩]
    [] 1 (by decide) (by decide) (by decide) (by decide)).trans (by decide)

/-! ## Claim C5 (per-file error aborts the job) -/

/-- C5: an I/O error while copying task `j` aborts the job — no later
task is copied, the destination holds exactly the original entries plus
the tasks before `j` — and surfaces exactly one error message, which
contains the offending file's name; the job does not finish. -/
theorem runWorker_error_fail_fast (c : Nat) (tasks : List CTask) (d : DestFS)
    (j : Nat) (hj : j < tasks.length)
    (herr : ∀ t ∈ tasks.take j, t.err = false)
    (herrj : (tasks.get ⟨j, hj⟩).err = true)
    (hc : checksList (tasks.take j) + 1 + (tasks.get ⟨j, hj⟩).chunks.length < c) :
    runWorker (cancelAt c) tasks d =
      ⟨copyAll d (tasks.take j), j,
        [errMsg (tasks.get ⟨j, hj⟩).name (tasks.get ⟨j, hj⟩).emsg], false⟩ ∧
      ∃ s u, s ++ (tasks.get ⟨j, hj⟩).name ++ u =
        errMsg (tasks.get ⟨j, hj⟩).name (tasks.get ⟨j, hj⟩).emsg := by
  constructor
  · rw [runWorker,
      runLoop_error_mid tasks j 0 d 0 [] hj herr herrj (by omega)]
    simp
  · refine ⟨strL "Error copying ", strL ": " ++ (tasks.get ⟨j, hj⟩).emsg, ?_⟩
    rw [errMsg]
    simp [List.append_assoc]

/-- Witness for `runWorker_error_fail_fast`: the second of three tasks
fails with an OSError; the first task's file is kept, the third is never
copied, and the single surfaced message embeds the offending name. -/
theorem runWorker_error_fail_fast_witness :
    runWorker (cancelAt 100)
      [⟨strL "a", 1, [[7]], false, []⟩,
        ⟨strL "bad.bin", 5, [[1]], true, strL "disk error"⟩,
        ⟨strL "z", 1, [[4]], false, []⟩] [] =
      ⟨[(strL "a", [[7]])], 1,
        [errMsg (strL "bad.bin") (strL "disk error")], false⟩ :=
  ((runWorker_error_fail_fast 100
    [⟨strL "a", 1, [[7]], false, []⟩,
      ⟨strL "bad.bin", 5, [[1]], true, strL "disk error"⟩,
      ⟨strL "z", 1, [[4]], false, []⟩]
    [] 1 (by decide) (by decide) (by decide) (by decide)).1).trans (by decide)

/-! ## The directory listing

`load_source_files` (source lines 245–274) iterates `sorted(files)` and
keeps a name when the extension filter passes (`extension == "All"` or a
case-insensitive suffix match) and `os.path.isfile` holds for its path
(regular file; directories and symlinks to directories fail it).  The
regular-file test is an abstract predicate supplied by the filesystem
snapshot. -/

/-- Lexicographic comparison of code-point strings: Python's string
ordering as used by sorted(). -/
def lexLe : Str → Str → Bool
  | [], _ => true
  | _ :: _, [] => false
  | a :: as, b :: bs =>
    if a < b then true else if b < a then false else lexLe as bs

/-- Insert into a sorted list, keeping order. -/
def insertSorted (x : Str) : List Str → List Str
  | [] => [x]
  | y :: ys => if lexLe x y then x :: y :: ys else y :: insertSorted x ys

/-- Python sorted() on the directory's name list: ascending
lexicographic order. -/
def sortStrs (l : List Str) : List Str := l.foldr insertSorted []

/-- The filter test of source line 259: the sentinel `"All"`, or
`filename.lower().endswith(extension.lower())`. -/
def passFilter (extension : Str) (filename : Str) : Bool :=
  decide (extension = strL "All") ||
    (lowerStr extension).isSuffixOf (lowerStr filename)

/-- load_source_files (source lines 245–274), as the list of names it
adds to the widget, in iteration order. -/
def load_source_files (files : List Str) (isfile : Str → Bool)
    (extension : Str) : List Str :=
  (sortStrs files).filter (fun n => passFilter extension n && isfile n)

/-- The filter as claim C8 words it, with the sentinel spelled in
lowercase: the string "all" would pass every name. -/
def passFilterSpec (extension : Str) (filename : Str) : Bool :=
  decide (extension = strL "all") ||
    (lowerStr extension).isSuffixOf (lowerStr filename)

theorem lexLe_total : ∀ a b : Str, lexLe a b = true ∨ lexLe b a = true := by
  intro a
  induction a with
  | nil => intro b; left; rw [lexLe]
  | cons x xs ih =>
    intro b
    cases b with
    | nil => right; rw [lexLe]
    | cons y ys =>
      rw [lexLe, lexLe]
      rcases Nat.lt_trichotomy x y with h | h | h
      · left; rw [if_pos h]
      · subst h
        rw [if_neg (by omega), if_neg (by omega), if_neg (by omega),
          if_neg (by omega)]
        exact ih ys
      · right; rw [if_pos h]

theorem lexLe_trans :
    ∀ {a b c : Str}, lexLe a b = true → lexLe b c = true →
      lexLe a c = true := by
  intro a
  induction a with
  | nil => intro b c _ _; rw [lexLe]
  | cons x xs ih =>
    intro b c hab hbc
    cases b with
    | nil => rw [lexLe] at hab; cases hab
    | cons y ys =>
      cases c with
      | nil => rw [lexLe] at hbc; cases hbc
      | cons z zs =>
        rw [lexLe] at hab hbc ⊢
        rcases Nat.lt_trichotomy x y with h1 | h1 | h1
        · rcases Nat.lt_trichotomy y z with h2 | h2 | h2
          · rw [if_pos (by omega)]
          · subst h2; rw [if_pos h1]
          · rw [if_neg (by omega), if_pos h2] at hbc; cases hbc
        · subst h1
          rw [if_neg (by omega), if_neg (by omega)] at hab
          rcases Nat.lt_trichotomy x z with h2 | h2 | h2
          · rw [if_pos h2]
          · subst h2
            rw [if_neg (by omega), if_neg (by omega)] at hbc ⊢
            exact ih hab hbc
          · rw [if_neg (by omega), if_pos h2] at hbc; cases hbc
        · rw [if_neg (by omega), if_pos h1] at hab; cases hab

theorem mem_insertSorted {x n : Str} :
    ∀ {l : List Str}, n ∈ insertSorted x l ↔ n = x ∨ n ∈ l := by
  intro l
  induction l with
  | nil => simp [insertSorted]
  | cons y ys ih =>
    rw [insertSorted]
    by_cases h : lexLe x y = true
    · rw [if_pos h]
      simp
    · rw [if_neg h]
      simp only [List.mem_cons, ih]
      tauto

theorem sorted_insertSorted (x : Str) :
    ∀ {l : List Str}, l.Pairwise (fun a b => lexLe a b = true) →
      (insertSorted x l).Pairwise (fun a b => lexLe a b = true) := by
  intro l
  induction l with
  | nil => intro _; simp [insertSorted]
  | cons y ys ih =>
    intro hp
    rw [List.pairwise_cons] at hp
    rw [insertSorted]
    by_cases h : lexLe x y = true
    · rw [if_pos h]
      refine List.Pairwise.cons ?_ (List.Pairwise.cons hp.1 hp.2)
      intro b hb
      rcases List.mem_cons.mp hb with h1 | h1
      · exact h1 ▸ h
      · exact lexLe_trans h (hp.1 b h1)
    · rw [if_neg h]
      have hyx : lexLe y x = true := by
        rcases lexLe_total x y with h1 | h1
        · exact absurd h1 h
        · exact h1
      refine List.Pairwise.cons ?_ (ih hp.2)
      intro b hb
      rcases mem_insertSorted.mp hb with h1 | h1
      · exact h1 ▸ hyx
      · exact hp.1 b h1

theorem sorted_sortStrs (l : List Str) :
    (sortStrs l).Pairwise (fun a b => lexLe a b = true) := by
  induction l with
  | nil => exact List.Pairwise.nil
  | cons x xs ih => exact sorted_insertSorted x ih

theorem mem_sortStrs {n : Str} : ∀ {l : List Str}, n ∈ sortStrs l ↔ n ∈ l := by
  intro l
  induction l with
  | nil => simp [sortStrs]
  | cons x xs ih =>
    rw [sortStrs, List.foldr_cons]
    rw [show List.foldr insertSorted [] xs = sortStrs xs from rfl]
    rw [mem_insertSorted, ih]
    simp

/-! ## Claim C8 (directory listing) -/

/-- C8 counterexample: the sentinel in the code is the capitalised
string "All"; the lowercase filter "all" is treated as a suffix pattern,
so a directory holding the regular file `song.mp3` lists nothing, while
the claim's reading of "all" as the sentinel would pass every name. -/
theorem load_source_files_all_sentinel_diverges :
    passFilterSpec (strL "all") (strL "song.mp3") = true ∧
      load_source_files [strL "song.mp3"] (fun _ => true) (strL "all") =
        [] := by
  decide

/-- C8 (amended): the listing returns exactly the directory entries that
are regular files and pass the filter, where the filter is the sentinel
"All" (exact capitalisation; every name passes) or a case-insensitive
suffix match; and the output is in ascending lexicographic name order,
hence deterministic for a fixed snapshot. -/
theorem load_source_files_spec (files : List Str) (isfile : Str → Bool)
    (extension : Str) :
    (∀ n ∈ load_source_files files isfile extension,
        isfile n = true ∧ passFilter extension n = true ∧ n ∈ files) ∧
      (∀ n ∈ files, isfile n = true → passFilter extension n = true →
        n ∈ load_source_files files isfile extension) ∧
      (∀ n, passFilter (strL "All") n = true) ∧
      (load_source_files files isfile extension).Pairwise
        (fun a b => lexLe a b = true) := by
  refine ⟨?_, ?_, ?_, ?_⟩
  · intro n hn
    have h1 := List.mem_filter.mp hn
    have h2 := h1.2
    rw [Bool.and_eq_true] at h2
    exact ⟨h2.2, h2.1, mem_sortStrs.mp h1.1⟩
  · intro n hn hf hp
    exact List.mem_filter.mpr ⟨mem_sortStrs.mpr hn, by rw [hp, hf]; rfl⟩
  · intro n
    rw [passFilter]
    simp
  · exact (sorted_sortStrs files).filter _

/-- Witness for `load_source_files_spec`: the regular file `b.mp3` is
listed under the sentinel filter "All". -/
theorem load_source_files_spec_witness :
    strL "b.mp3" ∈ load_source_files [strL "b.mp3"] (fun _ => true)
      (strL "All") :=
  (load_source_files_spec [strL "b.mp3"] (fun _ => true) (strL "All")).2.1
    (strL "b.mp3") (by decide) rfl (by decide)
